import Mathlib

/-! Shallow embedding of the 2D texture FFT visualizer (src/main.cpp) and
theorems checking the specification claims against it. Buffers are modelled as
total functions from flat row-major indices; machine floats are modelled as
exact real numbers, and complex floats as exact complex numbers. -/

namespace FFTVis

/-- Embeds to_luminance (main.cpp:70-73): BT.709 luma weights. -/
noncomputable def to_luminance (r g b : ℝ) : ℝ :=
  0.2126 * r + 0.7152 * g + 0.0722 * b

/-- Lower bound of the 8-bit unsigned sample type, numeric_limits min
(main.cpp:78). -/
def uint8_min : ℕ := 0

/-- Upper bound of the 8-bit unsigned sample type, numeric_limits max
(main.cpp:79). -/
def uint8_max : ℕ := 255

/-- Embeds as_float (main.cpp:75-81) instantiated at T = uint8_t. -/
noncomputable def as_float (x : ℕ) : ℝ :=
  ((x : ℝ) - (uint8_min : ℝ)) / ((uint8_max : ℝ) - (uint8_min : ℝ))

/-- Byte index read by png_to_luminance for pixel p and channel c, the
subscript nBytes * (y * width + x) + c of main.cpp:249-251 with p = y*width+x. -/
def png_read_index (nBytes p c : ℕ) : ℕ := nBytes * p + c

/-- Embeds png_to_luminance (main.cpp:236-258) on the flat row-major pixel
index p = y*width+x. It reads channels 0, 1, 2 of every pixel and performs no
channel-count check. -/
noncomputable def png_to_luminance (nBytes : ℕ) (dat : ℕ → ℕ) : ℕ → ℝ :=
  fun p => to_luminance (as_float (dat (png_read_index nBytes p 0)))
    (as_float (dat (png_read_index nBytes p 1)))
    (as_float (dat (png_read_index nBytes p 2)))

/-- Embeds the channel switch of upload_png (main.cpp:212-217), which throws
for channel counts other than 3 and 4. The png branch of the on_drop handler
does not call upload_png: the call at main.cpp:387 is commented out. -/
def upload_png_supported (nBytes : ℕ) : Bool := nBytes == 3 || nBytes == 4

/-- Embeds image_buffer compute_mean (main.cpp:196-201) on a flat buffer of n
samples. -/
noncomputable def compute_mean (n : ℕ) (d : ℕ → ℝ) : ℝ :=
  (∑ i ∈ Finset.range n, d i) / n

/-- Embeds the mean-centering loop of the on_drop handler (main.cpp:390-399):
each complex cell is the sample minus the mean, with imaginary part zero. -/
noncomputable def mean_center (n : ℕ) (d : ℕ → ℝ) : ℕ → ℂ :=
  fun i => ((d i - compute_mean n d : ℝ) : ℂ)

/-- Modelled from the spec: the kissfft transform call used by compute_fft_2d
lives in third-party kissfft/kissfft.hpp, which is not under src/; section 4.3
of the spec describes it as a forward 1D complex DFT of length n. -/
noncomputable def dft1 (n : ℕ) (x : ℕ → ℂ) (k : ℕ) : ℂ :=
  ∑ j ∈ Finset.range n, x j * Complex.exp (-2 * Real.pi * Complex.I * j * k / n)

/-- Embeds the row pass of compute_fft_2d (main.cpp:328-334): the row holding
flat index idx is transformed, and idx picks out entry idx mod w. -/
noncomputable def fft_rows (w : ℕ) (d : ℕ → ℂ) : ℕ → ℂ :=
  fun idx => dft1 w (fun x => d (idx / w * w + x)) (idx % w)

/-- Embeds the column pass of compute_fft_2d (main.cpp:336-343): the column
holding flat index idx is gathered, transformed, and idx picks out entry
idx div w. -/
noncomputable def fft_cols (w h : ℕ) (d : ℕ → ℂ) : ℕ → ℂ :=
  fun idx => dft1 h (fun y => d (y * w + idx % w)) (idx / w)

/-- Embeds compute_fft_2d (main.cpp:318-344): every row is transformed first,
then every column of the row-transformed data. -/
noncomputable def compute_fft_2d (w h : ℕ) (d : ℕ → ℂ) : ℕ → ℂ :=
  fft_cols w h (fft_rows w d)

/-- The 2D discrete Fourier transform written from the words of the spec
(sections 2 and 4.3), for the refinement claim about compute_fft_2d. -/
noncomputable def dft2d (w h : ℕ) (d : ℕ → ℂ) (ky kx : ℕ) : ℂ :=
  ∑ y ∈ Finset.range h, ∑ x ∈ Finset.range w,
    d (y * w + x) * Complex.exp (-2 * Real.pi * Complex.I * (kx * x / w + ky * y / h))

/-- The magnitude sqrt(re*re + im*im) computed by the normalization loop
(main.cpp:418); std::abs on a complex float (main.cpp:404-407) is the same
quantity. -/
noncomputable def mag (v : ℂ) : ℝ := Real.sqrt (v.re * v.re + v.im * v.im)

/-- Embeds the min fold of the normalization pass (main.cpp:403-410),
initialized with the magnitude of sample 0. -/
noncomputable def global_min (n : ℕ) (c : ℕ → ℂ) : ℝ :=
  ((List.range n).map (fun i => mag (c i))).foldl min (mag (c 0))

/-- Embeds the max fold of the normalization pass (main.cpp:403-410),
initialized with the magnitude of sample 0. -/
noncomputable def global_max (n : ℕ) (c : ℕ → ℂ) : ℝ :=
  ((List.range n).map (fun i => mag (c i))).foldl max (mag (c 0))

/-- Embeds the normalization write-back loop (main.cpp:412-420). -/
noncomputable def normalize_img (n : ℕ) (c : ℕ → ℂ) : ℕ → ℝ :=
  fun i => (mag (c i) - global_min n c) / (global_max n c - global_min n c)

/-- The denominator max - min of the normalization division at main.cpp:418,
which the code never guards against being zero. -/
noncomputable def norm_den (w h : ℕ) (lum : ℕ → ℝ) : ℝ :=
  global_max (w * h) (compute_fft_2d w h (mean_center (w * h) lum))
    - global_min (w * h) (compute_fft_2d w h (mean_center (w * h) lum))

/-- Embeds the min fold of shift_fft_image (main.cpp:281-288): the minimum
over all samples, initialized with data(0,0). -/
noncomputable def shift_min (n : ℕ) (d : ℕ → ℝ) : ℝ :=
  ((List.range n).map d).foldl min (d 0)

/-- Embeds the max fold of shift_fft_image (main.cpp:290): taken after the min
subtraction, but still initialized with the original data(0,0) stored at
main.cpp:282 before the subtraction. -/
noncomputable def shift_scale_max (n : ℕ) (d : ℕ → ℝ) : ℝ :=
  ((List.range n).map (fun i => d i - shift_min n d)).foldl max (d 0)

/-- Embeds shift_fft_image (main.cpp:279-292): subtract the min, then scale
by 255 / max. -/
noncomputable def shift_fft_image (n : ℕ) (d : ℕ → ℝ) : ℕ → ℝ :=
  fun i => (d i - shift_min n d) * (255 / shift_scale_max n d)

/-- The input coordinate (row, col) that center_fft_image (main.cpp:294-315)
reads for output pixel (i, j); note the row offset halfWidth in the branch
i < h/2, j >= w/2, from main.cpp:306. -/
def center_read (w h i j : ℕ) : ℕ × ℕ :=
  if i < h / 2 then
    if j < w / 2 then (i + h / 2, j + w / 2) else (i + w / 2, j - w / 2)
  else
    if j < w / 2 then (i - h / 2, j + w / 2) else (i - h / 2, j - w / 2)

/-- Embeds center_fft_image (main.cpp:294-315) on flat row-major buffers. -/
noncomputable def center_fft_image (w h : ℕ) (d : ℕ → ℝ) : ℕ → ℝ :=
  fun idx =>
    d ((center_read w h (idx / w) (idx % w)).1 * w + (center_read w h (idx / w) (idx % w)).2)

/-- Embeds the png branch of the on_drop handler (main.cpp:389-430), from the
luminance buffer to the centered buffer handed to upload_luminance. -/
noncomputable def pipeline (w h : ℕ) (lum : ℕ → ℝ) : ℕ → ℝ :=
  center_fft_image w h
    (shift_fft_image (w * h)
      (normalize_img (w * h) (compute_fft_2d w h (mean_center (w * h) lum))))

/-- The per-axis index map that center_read implements on even square
buffers of side 2*t. -/
def tau (t x : ℕ) : ℕ := if x < t then x + t else x - t

/-- The 2x2 single-bright-pixel luminance buffer [[1,0],[0,0]] of the spec
section 8 scenario, flattened row-major. -/
noncomputable def lum2 : ℕ → ℝ := fun i => if i = 0 then 1 else 0

lemma foldl_min_le_init (l : List ℝ) (a : ℝ) : l.foldl min a ≤ a := by
  induction l generalizing a with
  | nil => exact le_refl a
  | cons b t ih =>
      rw [List.foldl_cons]
      exact le_trans (ih (min a b)) (min_le_left a b)

lemma foldl_min_le_mem (l : List ℝ) (a x : ℝ) (hx : x ∈ l) : l.foldl min a ≤ x := by
  induction l generalizing a with
  | nil => cases hx
  | cons b t ih =>
      rw [List.foldl_cons]
      rcases List.mem_cons.mp hx with h | h
      · subst h
        exact le_trans (foldl_min_le_init t (min a x)) (min_le_right a x)
      · exact ih (min a b) h

lemma foldl_min_cases (l : List ℝ) (a : ℝ) : l.foldl min a = a ∨ l.foldl min a ∈ l := by
  induction l generalizing a with
  | nil => exact Or.inl rfl
  | cons b t ih =>
      rw [List.foldl_cons]
      rcases ih (min a b) with h | h
      · rcases min_choice a b with h2 | h2
        · exact Or.inl (h.trans h2)
        · exact Or.inr (List.mem_cons.mpr (Or.inl (h.trans h2)))
      · exact Or.inr (List.mem_cons.mpr (Or.inr h))

lemma le_foldl_max_init (l : List ℝ) (a : ℝ) : a ≤ l.foldl max a := by
  induction l generalizing a with
  | nil => exact le_refl a
  | cons b t ih =>
      rw [List.foldl_cons]
      exact le_trans (le_max_left a b) (ih (max a b))

lemma le_foldl_max_mem (l : List ℝ) (a x : ℝ) (hx : x ∈ l) : x ≤ l.foldl max a := by
  induction l generalizing a with
  | nil => cases hx
  | cons b t ih =>
      rw [List.foldl_cons]
      rcases List.mem_cons.mp hx with h | h
      · subst h
        exact le_trans (le_max_right a x) (le_foldl_max_init t (max a x))
      · exact ih (max a b) h

lemma foldl_max_cases (l : List ℝ) (a : ℝ) : l.foldl max a = a ∨ l.foldl max a ∈ l := by
  induction l generalizing a with
  | nil => exact Or.inl rfl
  | cons b t ih =>
      rw [List.foldl_cons]
      rcases ih (max a b) with h | h
      · rcases max_choice a b with h2 | h2
        · exact Or.inl (h.trans h2)
        · exact Or.inr (List.mem_cons.mpr (Or.inl (h.trans h2)))
      · exact Or.inr (List.mem_cons.mpr (Or.inr h))

lemma foldl_min_self (l : List ℝ) (a : ℝ) (hl : ∀ x ∈ l, x = a) : l.foldl min a = a := by
  induction l with
  | nil => rfl
  | cons b t ih =>
      rw [List.foldl_cons, hl b (List.mem_cons_self b t), min_self]
      exact ih (fun x hx => hl x (List.mem_cons.mpr (Or.inr hx)))

lemma foldl_max_self (l : List ℝ) (a : ℝ) (hl : ∀ x ∈ l, x = a) : l.foldl max a = a := by
  induction l with
  | nil => rfl
  | cons b t ih =>
      rw [List.foldl_cons, hl b (List.mem_cons_self b t), max_self]
      exact ih (fun x hx => hl x (List.mem_cons.mpr (Or.inr hx)))

lemma shift_min_le (n : ℕ) (d : ℕ → ℝ) (i : ℕ) (hi : i < n) : shift_min n d ≤ d i :=
  foldl_min_le_mem _ _ _ (List.mem_map.mpr ⟨i, List.mem_range.mpr hi, rfl⟩)

lemma shift_min_attained (n : ℕ) (d : ℕ → ℝ) (hn : 0 < n) :
    ∃ i, i < n ∧ shift_min n d = d i := by
  rcases foldl_min_cases ((List.range n).map d) (d 0) with h | h
  · exact ⟨0, hn, h⟩
  · rcases List.mem_map.mp h with ⟨i, hi, he⟩
    exact ⟨i, List.mem_range.mp hi, he.symm⟩

lemma zero_cell_le_shift_scale_max (n : ℕ) (d : ℕ → ℝ) : d 0 ≤ shift_scale_max n d :=
  le_foldl_max_init _ _

lemma sub_le_shift_scale_max (n : ℕ) (d : ℕ → ℝ) (i : ℕ) (hi : i < n) :
    d i - shift_min n d ≤ shift_scale_max n d :=
  le_foldl_max_mem _ _ _ (List.mem_map.mpr ⟨i, List.mem_range.mpr hi, rfl⟩)

lemma shift_scale_max_cases (n : ℕ) (d : ℕ → ℝ) :
    shift_scale_max n d = d 0 ∨ ∃ i, i < n ∧ shift_scale_max n d = d i - shift_min n d := by
  rcases foldl_max_cases ((List.range n).map (fun i => d i - shift_min n d)) (d 0) with h | h
  · exact Or.inl h
  · rcases List.mem_map.mp h with ⟨i, hi, he⟩
    exact Or.inr ⟨i, List.mem_range.mp hi, he.symm⟩

lemma gmin_le (n : ℕ) (c : ℕ → ℂ) (i : ℕ) (hi : i < n) : global_min n c ≤ mag (c i) :=
  foldl_min_le_mem _ _ _ (List.mem_map.mpr ⟨i, List.mem_range.mpr hi, rfl⟩)

lemma gmin_attained (n : ℕ) (c : ℕ → ℂ) (hn : 0 < n) :
    ∃ i, i < n ∧ global_min n c = mag (c i) := by
  rcases foldl_min_cases ((List.range n).map fun i => mag (c i)) (mag (c 0)) with h | h
  · exact ⟨0, hn, h⟩
  · rcases List.mem_map.mp h with ⟨i, hi, he⟩
    exact ⟨i, List.mem_range.mp hi, he.symm⟩

lemma le_gmax (n : ℕ) (c : ℕ → ℂ) (i : ℕ) (hi : i < n) : mag (c i) ≤ global_max n c :=
  le_foldl_max_mem _ _ _ (List.mem_map.mpr ⟨i, List.mem_range.mpr hi, rfl⟩)

lemma gmax_attained (n : ℕ) (c : ℕ → ℂ) (hn : 0 < n) :
    ∃ i, i < n ∧ global_max n c = mag (c i) := by
  rcases foldl_max_cases ((List.range n).map fun i => mag (c i)) (mag (c 0)) with h | h
  · exact ⟨0, hn, h⟩
  · rcases List.mem_map.mp h with ⟨i, hi, he⟩
    exact ⟨i, List.mem_range.mp hi, he.symm⟩

lemma rowcol_div (w y r : ℕ) (hw : 0 < w) (hr : r < w) : (y * w + r) / w = y := by
  rw [add_comm, Nat.add_mul_div_right _ _ hw, Nat.div_eq_of_lt hr, zero_add]

lemma rowcol_mod (w y r : ℕ) (hr : r < w) : (y * w + r) % w = r := by
  rw [add_comm, Nat.add_mul_mod_self_right, Nat.mod_eq_of_lt hr]

/-- C2: refuted by the code. At width 2, height 6 (halfWidth 1, halfHeight 3),
output pixel (0,1) falls in the branch of main.cpp:306, which reads input
(i + halfWidth, j - halfWidth) = (1,0); the claimed remap
in(i + halfHeight, j - halfWidth) would read (3,0). On the buffer whose cell
at flat index k holds the value k, the produced value is 2, not the claimed 6. -/
theorem C2_center_eval :
    center_read 2 6 0 1 = (1, 0) ∧
      center_read 2 6 0 1 ≠ (0 + 6 / 2, 1 - 2 / 2) ∧
      center_fft_image 2 6 (fun k => (k : ℝ)) 1 = 2 ∧
      (fun k => (k : ℝ)) (3 * 2 + 0) = 6 ∧ ((2 : ℝ) ≠ 6) := by
  refine ⟨by decide, by decide, ?_, by norm_num, by norm_num⟩
  norm_num [center_fft_image, center_read]

/-- C4: refuted by the code. At width 4, height 2, output pixel (0,2) falls in
the branch of main.cpp:306 and center_fft_image reads input row
i + halfWidth = 2, which is not less than height = 2: the read is out of
bounds (flat index 8 in a buffer of 4*2 = 8 cells). -/
theorem C4_oob_read :
    (center_read 4 2 0 2).1 = 2 ∧ ¬ (center_read 4 2 0 2).1 < 2 ∧
      (center_read 4 2 0 2).1 * 4 + (center_read 4 2 0 2).2 = 8 ∧ ¬ (8 < 4 * 2) := by
  decide

/-- C5: refuted by the code. At width 3, height 3, output pixels (0,0) and
(0,2) both read input cell (1,1), so the coordinate map of center_fft_image is
not injective and hence not a bijection; moreover input cell (2,2) is read by
no output pixel at all. -/
theorem C5_not_injective :
    center_read 3 3 0 0 = center_read 3 3 0 2 ∧
      (2, 2) ∉ (List.range 3).flatMap fun i => (List.range 3).map fun j => center_read 3 3 i j := by
  decide

/-- C6: compute_fft_2d transforms every row with a forward 1D DFT of length
width, then every column of the row-transformed data with a forward 1D DFT of
length height (the column pass is applied to the completed row pass by
construction), and the composite equals the 2D discrete Fourier transform at
every pixel (ky, kx). -/
theorem C6_fft2d_correct (w h : ℕ) (hw : 0 < w) (hh : 0 < h) (d : ℕ → ℂ)
    (ky kx : ℕ) (hky : ky < h) (hkx : kx < w) :
    compute_fft_2d w h d (ky * w + kx) = dft2d w h d ky kx := by
  simp only [compute_fft_2d, fft_cols, fft_rows, dft2d]
  rw [rowcol_div w ky kx hw hkx, rowcol_mod w ky kx hkx]
  refine Finset.sum_congr rfl ?_
  intro y hy
  dsimp only
  rw [rowcol_div w y kx hw hkx, rowcol_mod w y kx hkx]
  simp only [dft1]
  rw [Finset.sum_mul]
  refine Finset.sum_congr rfl ?_
  intro x hx
  rw [mul_assoc, ← Complex.exp_add]
  congr 2
  ring

/-- C6 witness: the theorem applied to the 1x1 constant buffer at pixel (0,0). -/
theorem C6_fft2d_witness :
    compute_fft_2d 1 1 (fun _ => 1) (0 * 1 + 0) = dft2d 1 1 (fun _ => 1) 0 0 :=
  C6_fft2d_correct 1 1 (by norm_num) (by norm_num) (fun _ => 1) 0 0
    (by norm_num) (by norm_num)

/-- C8: mean-centering produces, for every cell, real part sample minus mean
and imaginary part zero, over a buffer of the same row-major shape, and the
real parts sum to zero exactly (so their mean is zero); the embedding is a
pure function, the input buffer is untouched. -/
theorem C8_mean_center (w h : ℕ) (d : ℕ → ℝ) (hn : 0 < w * h) :
    (∀ i, (mean_center (w * h) d i).re = d i - compute_mean (w * h) d) ∧
    (∀ i, (mean_center (w * h) d i).im = 0) ∧
    (∑ i ∈ Finset.range (w * h), (mean_center (w * h) d i).re) = 0 := by
  refine ⟨fun i => by simp [mean_center], fun i => by simp [mean_center], ?_⟩
  have hne : ((w * h : ℕ) : ℝ) ≠ 0 := Nat.cast_ne_zero.mpr hn.ne'
  simp only [mean_center, Complex.ofReal_re, compute_mean]
  rw [Finset.sum_sub_distrib, Finset.sum_const, Finset.card_range, nsmul_eq_mul,
    mul_div_cancel₀ _ hne, sub_self]

/-- C8 witness: the theorem applied to the 2x2 buffer lum2. -/
theorem C8_mean_center_witness :
    (∑ i ∈ Finset.range (2 * 2), (mean_center (2 * 2) lum2 i).re) = 0 :=
  (C8_mean_center 2 2 lum2 (by norm_num)).2.2

/-- C9: the luminance of an 8-bit pixel equals the BT.709 weighted sum of the
channels normalized by (sample - 0) / (255 - 0), lies in [0,1], and for
4-channel data png_to_luminance depends only on channels 0, 1, 2: the alpha
channel is ignored. -/
theorem C9_luminance :
    (∀ r g b : ℕ, r ≤ 255 → g ≤ 255 → b ≤ 255 →
      to_luminance (as_float r) (as_float g) (as_float b)
          = 0.2126 * ((r : ℝ) / 255) + 0.7152 * ((g : ℝ) / 255) + 0.0722 * ((b : ℝ) / 255) ∧
        0 ≤ to_luminance (as_float r) (as_float g) (as_float b) ∧
        to_luminance (as_float r) (as_float g) (as_float b) ≤ 1) ∧
    (∀ dat dat' : ℕ → ℕ,
      (∀ p c, c < 3 → dat (png_read_index 4 p c) = dat' (png_read_index 4 p c)) →
      ∀ p, png_to_luminance 4 dat p = png_to_luminance 4 dat' p) := by
  constructor
  · intro r g b hr hg hb
    have hval : ∀ x : ℕ, as_float x = (x : ℝ) / 255 := by
      intro x
      simp [as_float, uint8_min, uint8_max]
    have hb01 : ∀ x : ℕ, x ≤ 255 → 0 ≤ (x : ℝ) / 255 ∧ (x : ℝ) / 255 ≤ 1 := by
      intro x hx
      constructor
      · positivity
      · rw [div_le_one (by norm_num : (0:ℝ) < 255)]
        exact_mod_cast hx
    obtain ⟨hr0, hr1⟩ := hb01 r hr
    obtain ⟨hg0, hg1⟩ := hb01 g hg
    obtain ⟨hb0, hb1⟩ := hb01 b hb
    refine ⟨by rw [to_luminance, hval, hval, hval], ?_, ?_⟩
    · rw [to_luminance, hval, hval, hval]
      positivity
    · rw [to_luminance, hval, hval, hval]
      nlinarith
  · intro dat dat' hd p
    simp only [png_to_luminance]
    rw [hd p 0 (by norm_num), hd p 1 (by norm_num), hd p 2 (by norm_num)]

/-- C9 witness: the theorem applied at the all-128 pixel. -/
theorem C9_luminance_witness :
    0 ≤ to_luminance (as_float 128) (as_float 128) (as_float 128) ∧
      to_luminance (as_float 128) (as_float 128) (as_float 128) ≤ 1 :=
  ⟨(C9_luminance.1 128 128 128 (by norm_num) (by norm_num) (by norm_num)).2.1,
   (C9_luminance.1 128 128 128 (by norm_num) (by norm_num) (by norm_num)).2.2⟩

/-- C10: shift_fft_image maps each sample in place to
(v - globalMin) * (255 / scaleMax), where globalMin is the minimum over all
samples (attained) and scaleMax is the maximum, over the min-subtracted data,
of the original sample at (0,0) and all shifted samples; when the samples are
not all equal, every output sample is nonnegative and some output sample is
zero. -/
theorem C10_shift (w h : ℕ) (d : ℕ → ℝ) (hw : 0 < w) (hh : 0 < h)
    (hne : ∃ i, i < w * h ∧ ∃ j, j < w * h ∧ d i ≠ d j) :
    (∀ i, shift_fft_image (w * h) d i
        = (d i - shift_min (w * h) d) * (255 / shift_scale_max (w * h) d)) ∧
    (∀ i, i < w * h → shift_min (w * h) d ≤ d i) ∧
    (∃ i, i < w * h ∧ shift_min (w * h) d = d i) ∧
    (d 0 ≤ shift_scale_max (w * h) d) ∧
    (∀ i, i < w * h → d i - shift_min (w * h) d ≤ shift_scale_max (w * h) d) ∧
    (shift_scale_max (w * h) d = d 0 ∨
      ∃ i, i < w * h ∧ shift_scale_max (w * h) d = d i - shift_min (w * h) d) ∧
    (∀ i, i < w * h → 0 ≤ shift_fft_image (w * h) d i) ∧
    (∃ i, i < w * h ∧ shift_fft_image (w * h) d i = 0) := by
  have hn : 0 < w * h := Nat.mul_pos hw hh
  obtain ⟨i, hi, j, hj, hij⟩ := hne
  have hMpos : 0 < shift_scale_max (w * h) d := by
    rcases lt_or_gt_of_ne hij with hlt | hgt
    · have h1 : shift_min (w * h) d ≤ d i := shift_min_le _ _ _ hi
      have h2 : d j - shift_min (w * h) d ≤ shift_scale_max (w * h) d :=
        sub_le_shift_scale_max _ _ _ hj
      linarith
    · have h1 : shift_min (w * h) d ≤ d j := shift_min_le _ _ _ hj
      have h2 : d i - shift_min (w * h) d ≤ shift_scale_max (w * h) d :=
        sub_le_shift_scale_max _ _ _ hi
      linarith
  refine ⟨fun k => rfl, fun k hk => shift_min_le _ _ _ hk, shift_min_attained _ _ hn,
    zero_cell_le_shift_scale_max _ _, fun k hk => sub_le_shift_scale_max _ _ _ hk,
    shift_scale_max_cases _ _, ?_, ?_⟩
  · intro k hk
    have h1 : 0 ≤ d k - shift_min (w * h) d := sub_nonneg.mpr (shift_min_le _ _ _ hk)
    have h2 : 0 ≤ 255 / shift_scale_max (w * h) d := by positivity
    exact mul_nonneg h1 h2
  · obtain ⟨k, hk, hkeq⟩ := shift_min_attained (w * h) d hn
    refine ⟨k, hk, ?_⟩
    show (d k - shift_min (w * h) d) * (255 / shift_scale_max (w * h) d) = 0
    rw [hkeq, sub_self, zero_mul]

/-- C10 witness: the theorem applied to the 2x2 buffer lum2, whose samples are
not all equal. -/
theorem C10_shift_witness :
    (∃ i, i < 2 * 2 ∧ shift_min (2 * 2) lum2 = lum2 i) ∧
      (∃ i, i < 2 * 2 ∧ shift_fft_image (2 * 2) lum2 i = 0) := by
  have h := C10_shift 2 2 lum2 (by norm_num) (by norm_num)
    ⟨0, by norm_num, 1, by norm_num, by norm_num [lum2]⟩
  exact ⟨h.2.2.1, h.2.2.2.2.2.2.2⟩

lemma gmin_lt_gmax (n : ℕ) (c : ℕ → ℂ) (hn : 0 < n)
    (hnd : global_min n c ≠ global_max n c) : global_min n c < global_max n c := by
  have h1 : global_min n c ≤ mag (c 0) := gmin_le n c 0 hn
  have h2 : mag (c 0) ≤ global_max n c := le_gmax n c 0 hn
  exact lt_of_le_of_ne (le_trans h1 h2) hnd

lemma norm_bounds (n : ℕ) (c : ℕ → ℂ) (hn : 0 < n)
    (hnd : global_min n c ≠ global_max n c) :
    ∀ i, i < n → 0 ≤ normalize_img n c i ∧ normalize_img n c i ≤ 1 := by
  intro i hi
  have hpos : 0 < global_max n c - global_min n c :=
    sub_pos.mpr (gmin_lt_gmax n c hn hnd)
  constructor
  · exact div_nonneg (sub_nonneg.mpr (gmin_le n c i hi)) (le_of_lt hpos)
  · rw [normalize_img, div_le_one hpos]
    have := le_gmax n c i hi
    linarith

lemma norm_attains_zero (n : ℕ) (c : ℕ → ℂ) (hn : 0 < n) :
    ∃ i, i < n ∧ normalize_img n c i = 0 := by
  obtain ⟨i, hi, he⟩ := gmin_attained n c hn
  refine ⟨i, hi, ?_⟩
  show (mag (c i) - global_min n c) / (global_max n c - global_min n c) = 0
  rw [he, sub_self, zero_div]

lemma norm_attains_one (n : ℕ) (c : ℕ → ℂ) (hn : 0 < n)
    (hnd : global_min n c ≠ global_max n c) :
    ∃ i, i < n ∧ normalize_img n c i = 1 := by
  obtain ⟨i, hi, he⟩ := gmax_attained n c hn
  have hne : global_max n c - global_min n c ≠ 0 :=
    ne_of_gt (sub_pos.mpr (gmin_lt_gmax n c hn hnd))
  refine ⟨i, hi, ?_⟩
  show (mag (c i) - global_min n c) / (global_max n c - global_min n c) = 1
  rw [← he, div_self hne]

lemma shift_min_eq_zero (n : ℕ) (d : ℕ → ℝ) (hn : 0 < n)
    (hpos : ∀ i, i < n → 0 ≤ d i) (h0 : ∃ i, i < n ∧ d i = 0) :
    shift_min n d = 0 := by
  obtain ⟨i0, hi0, he0⟩ := h0
  have hle : shift_min n d ≤ 0 := he0 ▸ shift_min_le n d i0 hi0
  obtain ⟨k, hk, hke⟩ := shift_min_attained n d hn
  have hge : 0 ≤ shift_min n d := hke ▸ hpos k hk
  linarith

lemma shift_scale_max_eq_one (n : ℕ) (d : ℕ → ℝ) (hn : 0 < n)
    (hle : ∀ i, i < n → d i ≤ 1) (h1 : ∃ i, i < n ∧ d i = 1)
    (hmn : shift_min n d = 0) : shift_scale_max n d = 1 := by
  obtain ⟨i1, hi1, he1⟩ := h1
  have hge : 1 ≤ shift_scale_max n d := by
    have h := sub_le_shift_scale_max n d i1 hi1
    rw [he1, hmn, sub_zero] at h
    exact h
  have hub : shift_scale_max n d ≤ 1 := by
    rcases shift_scale_max_cases n d with h | ⟨k, hk, hke⟩
    · rw [h]; exact hle 0 hn
    · rw [hke, hmn, sub_zero]; exact hle k hk
  linarith

lemma tau_lt (t x : ℕ) (hx : x < 2 * t) : tau t x < 2 * t := by
  unfold tau
  split <;> omega

lemma tau_invol (t x : ℕ) (hx : x < 2 * t) : tau t (tau t x) = x := by
  by_cases h : x < t
  · have h2 : ¬ (x + t < t) := by omega
    simp [tau, h, h2]
  · have h2 : x - t < t := by omega
    simp [tau, h, h2]
    omega

lemma center_read_even_square (t i j : ℕ) :
    center_read (2 * t) (2 * t) i j = (tau t i, tau t j) := by
  have h2 : 2 * t / 2 = t := by omega
  simp only [center_read, tau, h2]
  by_cases hi : i < t <;> by_cases hj : j < t <;> simp [hi, hj]

lemma flat_lt (w h r c : ℕ) (hr : r < h) (hc : c < w) : r * w + c < w * h :=
  calc r * w + c < r * w + w := by omega
    _ = (r + 1) * w := by ring
    _ ≤ h * w := Nat.mul_le_mul_right w hr
    _ = w * h := Nat.mul_comm h w

lemma center_even_square_bounds (t : ℕ) (s : ℕ → ℝ) (lo hi : ℝ)
    (hb : ∀ i, i < 2 * t * (2 * t) → lo ≤ s i ∧ s i ≤ hi) :
    ∀ idx, idx < 2 * t * (2 * t) →
      lo ≤ center_fft_image (2 * t) (2 * t) s idx ∧
        center_fft_image (2 * t) (2 * t) s idx ≤ hi := by
  intro idx hidx
  have hw : 0 < 2 * t := by
    by_contra hcon
    have h0 : 2 * t = 0 := by omega
    rw [h0] at hidx
    simp at hidx
  have hrow : idx / (2 * t) < 2 * t := (Nat.div_lt_iff_lt_mul hw).mpr hidx
  have hcol : idx % (2 * t) < 2 * t := Nat.mod_lt _ hw
  have hread : center_fft_image (2 * t) (2 * t) s idx
      = s (tau t (idx / (2 * t)) * (2 * t) + tau t (idx % (2 * t))) := by
    show s ((center_read (2 * t) (2 * t) (idx / (2 * t)) (idx % (2 * t))).1 * (2 * t)
        + (center_read (2 * t) (2 * t) (idx / (2 * t)) (idx % (2 * t))).2) = _
    rw [center_read_even_square]
  rw [hread]
  exact hb _ (flat_lt _ _ _ _ (tau_lt t _ hrow) (tau_lt t _ hcol))

lemma center_even_square_attains (t : ℕ) (s : ℕ → ℝ) (v : ℝ)
    (hv : ∃ i, i < 2 * t * (2 * t) ∧ s i = v) :
    ∃ idx, idx < 2 * t * (2 * t) ∧ center_fft_image (2 * t) (2 * t) s idx = v := by
  obtain ⟨i, hi, he⟩ := hv
  have hw : 0 < 2 * t := by
    by_contra hcon
    have h0 : 2 * t = 0 := by omega
    rw [h0] at hi
    simp at hi
  have hr : i / (2 * t) < 2 * t := (Nat.div_lt_iff_lt_mul hw).mpr hi
  have hc : i % (2 * t) < 2 * t := Nat.mod_lt _ hw
  refine ⟨tau t (i / (2 * t)) * (2 * t) + tau t (i % (2 * t)),
    flat_lt _ _ _ _ (tau_lt t _ hr) (tau_lt t _ hc), ?_⟩
  show s ((center_read (2 * t) (2 * t)
        ((tau t (i / (2 * t)) * (2 * t) + tau t (i % (2 * t))) / (2 * t))
        ((tau t (i / (2 * t)) * (2 * t) + tau t (i % (2 * t))) % (2 * t))).1 * (2 * t)
      + (center_read (2 * t) (2 * t)
        ((tau t (i / (2 * t)) * (2 * t) + tau t (i % (2 * t))) / (2 * t))
        ((tau t (i / (2 * t)) * (2 * t) + tau t (i % (2 * t))) % (2 * t))).2) = v
  rw [rowcol_div _ _ _ hw (tau_lt t _ hc), rowcol_mod _ _ _ (tau_lt t _ hc),
    center_read_even_square, tau_invol t _ hr, tau_invol t _ hc]
  show s (i / (2 * t) * (2 * t) + i % (2 * t)) = v
  have hid : i / (2 * t) * (2 * t) + i % (2 * t) = i := by
    rw [Nat.mul_comm]
    exact Nat.div_add_mod i (2 * t)
  rw [hid, he]

lemma shift_center_of_norm (t : ℕ) (ht : 0 < t) (img : ℕ → ℝ)
    (hb : ∀ i, i < 2 * t * (2 * t) → 0 ≤ img i ∧ img i ≤ 1)
    (h0 : ∃ i, i < 2 * t * (2 * t) ∧ img i = 0)
    (h1 : ∃ i, i < 2 * t * (2 * t) ∧ img i = 1) :
    (∀ i, i < 2 * t * (2 * t) →
        0 ≤ center_fft_image (2 * t) (2 * t) (shift_fft_image (2 * t * (2 * t)) img) i ∧
        center_fft_image (2 * t) (2 * t) (shift_fft_image (2 * t * (2 * t)) img) i ≤ 255) ∧
    (∃ i, i < 2 * t * (2 * t) ∧
        center_fft_image (2 * t) (2 * t) (shift_fft_image (2 * t * (2 * t)) img) i = 0) ∧
    (∃ i, i < 2 * t * (2 * t) ∧
        center_fft_image (2 * t) (2 * t) (shift_fft_image (2 * t * (2 * t)) img) i = 255) := by
  have hw : 0 < 2 * t := by omega
  have hn : 0 < 2 * t * (2 * t) := Nat.mul_pos hw hw
  have hmn : shift_min (2 * t * (2 * t)) img = 0 :=
    shift_min_eq_zero _ _ hn (fun i hi => (hb i hi).1) h0
  have hM : shift_scale_max (2 * t * (2 * t)) img = 1 :=
    shift_scale_max_eq_one _ _ hn (fun i hi => (hb i hi).2) h1 hmn
  have hs_val : ∀ i, shift_fft_image (2 * t * (2 * t)) img i = img i * 255 := by
    intro i
    show (img i - shift_min (2 * t * (2 * t)) img)
        * (255 / shift_scale_max (2 * t * (2 * t)) img) = img i * 255
    rw [hmn, hM, sub_zero, div_one]
  have hs_b : ∀ i, i < 2 * t * (2 * t) →
      0 ≤ shift_fft_image (2 * t * (2 * t)) img i ∧
        shift_fft_image (2 * t * (2 * t)) img i ≤ 255 := by
    intro i hi
    rw [hs_val i]
    obtain ⟨hb0, hb1⟩ := hb i hi
    constructor
    · positivity
    · nlinarith
  refine ⟨center_even_square_bounds t _ 0 255 hs_b, ?_, ?_⟩
  · refine center_even_square_attains t _ 0 ?_
    obtain ⟨i, hi, he⟩ := h0
    exact ⟨i, hi, by rw [hs_val i, he, zero_mul]⟩
  · refine center_even_square_attains t _ 255 ?_
    obtain ⟨i, hi, he⟩ := h1
    exact ⟨i, hi, by rw [hs_val i, he, one_mul]⟩

/-- C1 amended: the final buffer handed to the renderer lies in [0,255], not
[0,1], because shift_fft_image rescales by 255/max; for a non-degenerate
spectrum the values 0 and 255 are both attained. Stated for even square
dimensions 2t x 2t, where the quadrant centering is a valid bijection; for
other shapes the centering defect recorded for C4 and C5 can read out of
bounds or drop the extremal samples. -/
theorem C1_amended_bounds (t : ℕ) (ht : 0 < t) (lum : ℕ → ℝ)
    (hnd :
      global_min (2 * t * (2 * t))
          (compute_fft_2d (2 * t) (2 * t) (mean_center (2 * t * (2 * t)) lum)) ≠
        global_max (2 * t * (2 * t))
          (compute_fft_2d (2 * t) (2 * t) (mean_center (2 * t * (2 * t)) lum))) :
    (∀ i, i < 2 * t * (2 * t) →
        0 ≤ pipeline (2 * t) (2 * t) lum i ∧ pipeline (2 * t) (2 * t) lum i ≤ 255) ∧
    (∃ i, i < 2 * t * (2 * t) ∧ pipeline (2 * t) (2 * t) lum i = 0) ∧
    (∃ i, i < 2 * t * (2 * t) ∧ pipeline (2 * t) (2 * t) lum i = 255) := by
  have hw : 0 < 2 * t := by omega
  have hn : 0 < 2 * t * (2 * t) := Nat.mul_pos hw hw
  exact shift_center_of_norm t ht _
    (norm_bounds _ _ hn hnd) (norm_attains_zero _ _ hn) (norm_attains_one _ _ hn hnd)

lemma fft_rows_apply (w : ℕ) (d : ℕ → ℂ) (y r : ℕ) (hw : 0 < w) (hr : r < w) :
    fft_rows w d (y * w + r) = dft1 w (fun x => d (y * w + x)) r := by
  show dft1 w (fun x => d ((y * w + r) / w * w + x)) ((y * w + r) % w) = _
  rw [rowcol_div w y r hw hr, rowcol_mod w y r hr]

lemma fft_cols_apply (w h : ℕ) (d : ℕ → ℂ) (k r : ℕ) (hw : 0 < w) (hr : r < w) :
    fft_cols w h d (k * w + r) = dft1 h (fun y => d (y * w + r)) k := by
  show dft1 h (fun y => d (y * w + (k * w + r) % w)) ((k * w + r) / w) = _
  rw [rowcol_div w k r hw hr, rowcol_mod w k r hr]

lemma dft1_two_zero (x : ℕ → ℂ) : dft1 2 x 0 = x 0 + x 1 := by
  simp [dft1, Finset.sum_range_succ]

lemma dft1_two_one (x : ℕ → ℂ) : dft1 2 x 1 = x 0 - x 1 := by
  have harg : (-2 * (Real.pi : ℂ) * Complex.I * ((1 : ℕ) : ℂ) * ((1 : ℕ) : ℂ) / ((2 : ℕ) : ℂ))
      = -((Real.pi : ℂ) * Complex.I) := by
    push_cast
    ring
  have hexp : Complex.exp (-2 * (Real.pi : ℂ) * Complex.I * ((1 : ℕ) : ℂ) * ((1 : ℕ) : ℂ)
      / ((2 : ℕ) : ℂ)) = -1 := by
    rw [harg, Complex.exp_neg, Complex.exp_pi_mul_I]
    norm_num
  rw [dft1, Finset.sum_range_succ, Finset.sum_range_one, hexp]
  norm_num
  ring

lemma mag_zero : mag 0 = 0 := by
  simp [mag]

lemma mag_one : mag 1 = 1 := by
  simp [mag]

lemma lum2_mean : compute_mean 4 lum2 = 1 / 4 := by
  rw [compute_mean, Finset.sum_range_succ, Finset.sum_range_succ, Finset.sum_range_succ,
    Finset.sum_range_one]
  norm_num [lum2]

lemma lum2_center (i : ℕ) :
    mean_center 4 lum2 i = if i = 0 then (3 / 4 : ℂ) else (-(1 / 4) : ℂ) := by
  show ((lum2 i - compute_mean 4 lum2 : ℝ) : ℂ) = _
  rw [lum2_mean]
  simp only [lum2]
  by_cases h : i = 0 <;> norm_num [h]

lemma fr2_0 : fft_rows 2 (mean_center 4 lum2) 0 = 1 / 2 := by
  have h := fft_rows_apply 2 (mean_center 4 lum2) 0 0 (by norm_num) (by norm_num)
  norm_num at h
  rw [h, dft1_two_zero]
  norm_num [lum2_center]

lemma fr2_1 : fft_rows 2 (mean_center 4 lum2) 1 = 1 := by
  have h := fft_rows_apply 2 (mean_center 4 lum2) 0 1 (by norm_num) (by norm_num)
  norm_num at h
  rw [h, dft1_two_one]
  norm_num [lum2_center]

lemma fr2_2 : fft_rows 2 (mean_center 4 lum2) 2 = -(1 / 2) := by
  have h := fft_rows_apply 2 (mean_center 4 lum2) 1 0 (by norm_num) (by norm_num)
  norm_num at h
  rw [h, dft1_two_zero]
  norm_num [lum2_center]

lemma fr2_3 : fft_rows 2 (mean_center 4 lum2) 3 = 0 := by
  have h := fft_rows_apply 2 (mean_center 4 lum2) 1 1 (by norm_num) (by norm_num)
  norm_num at h
  rw [h, dft1_two_one]
  norm_num [lum2_center]

lemma f2_0 : compute_fft_2d 2 2 (mean_center 4 lum2) 0 = 0 := by
  show fft_cols 2 2 (fft_rows 2 (mean_center 4 lum2)) 0 = 0
  have h := fft_cols_apply 2 2 (fft_rows 2 (mean_center 4 lum2)) 0 0 (by norm_num) (by norm_num)
  norm_num at h
  rw [h, dft1_two_zero]
  norm_num [fr2_0, fr2_2]

lemma f2_1 : compute_fft_2d 2 2 (mean_center 4 lum2) 1 = 1 := by
  show fft_cols 2 2 (fft_rows 2 (mean_center 4 lum2)) 1 = 1
  have h := fft_cols_apply 2 2 (fft_rows 2 (mean_center 4 lum2)) 0 1 (by norm_num) (by norm_num)
  norm_num at h
  rw [h, dft1_two_zero]
  norm_num [fr2_1, fr2_3]

lemma f2_2 : compute_fft_2d 2 2 (mean_center 4 lum2) 2 = 1 := by
  show fft_cols 2 2 (fft_rows 2 (mean_center 4 lum2)) 2 = 1
  have h := fft_cols_apply 2 2 (fft_rows 2 (mean_center 4 lum2)) 1 0 (by norm_num) (by norm_num)
  norm_num at h
  rw [h, dft1_two_one]
  norm_num [fr2_0, fr2_2]

lemma f2_3 : compute_fft_2d 2 2 (mean_center 4 lum2) 3 = 1 := by
  show fft_cols 2 2 (fft_rows 2 (mean_center 4 lum2)) 3 = 1
  have h := fft_cols_apply 2 2 (fft_rows 2 (mean_center 4 lum2)) 1 1 (by norm_num) (by norm_num)
  norm_num at h
  rw [h, dft1_two_one]
  norm_num [fr2_1, fr2_3]

lemma gmin_f2 : global_min 4 (compute_fft_2d 2 2 (mean_center 4 lum2)) = 0 := by
  rw [global_min, show List.range 4 = [0, 1, 2, 3] from rfl]
  simp only [List.map]
  rw [f2_0, f2_1, f2_2, f2_3, mag_zero, mag_one]
  norm_num [List.foldl, min_def]

lemma gmax_f2 : global_max 4 (compute_fft_2d 2 2 (mean_center 4 lum2)) = 1 := by
  rw [global_max, show List.range 4 = [0, 1, 2, 3] from rfl]
  simp only [List.map]
  rw [f2_0, f2_1, f2_2, f2_3, mag_zero, mag_one]
  norm_num [List.foldl, max_def]

lemma img2_val (i : ℕ) :
    normalize_img 4 (compute_fft_2d 2 2 (mean_center 4 lum2)) i
      = mag (compute_fft_2d 2 2 (mean_center 4 lum2) i) := by
  show (mag (compute_fft_2d 2 2 (mean_center 4 lum2) i)
        - global_min 4 (compute_fft_2d 2 2 (mean_center 4 lum2)))
      / (global_max 4 (compute_fft_2d 2 2 (mean_center 4 lum2))
        - global_min 4 (compute_fft_2d 2 2 (mean_center 4 lum2))) = _
  rw [gmin_f2, gmax_f2]
  norm_num

lemma img2_bounds : ∀ i, i < 4 →
    0 ≤ normalize_img 4 (compute_fft_2d 2 2 (mean_center 4 lum2)) i ∧
      normalize_img 4 (compute_fft_2d 2 2 (mean_center 4 lum2)) i ≤ 1 :=
  norm_bounds 4 _ (by norm_num) (by rw [gmin_f2, gmax_f2]; norm_num)

lemma smn2 : shift_min 4 (normalize_img 4 (compute_fft_2d 2 2 (mean_center 4 lum2))) = 0 :=
  shift_min_eq_zero 4 _ (by norm_num) (fun i hi => (img2_bounds i hi).1)
    ⟨0, by norm_num, by rw [img2_val, f2_0, mag_zero]⟩

lemma sM2 : shift_scale_max 4 (normalize_img 4 (compute_fft_2d 2 2 (mean_center 4 lum2))) = 1 :=
  shift_scale_max_eq_one 4 _ (by norm_num) (fun i hi => (img2_bounds i hi).2)
    ⟨1, by norm_num, by rw [img2_val, f2_1, mag_one]⟩ smn2

lemma pipeline2_at0 : pipeline 2 2 lum2 0 = 255 := by
  show center_fft_image 2 2 (shift_fft_image 4 (normalize_img 4
      (compute_fft_2d 2 2 (mean_center 4 lum2)))) 0 = 255
  show shift_fft_image 4 (normalize_img 4 (compute_fft_2d 2 2 (mean_center 4 lum2))) 3 = 255
  show (normalize_img 4 (compute_fft_2d 2 2 (mean_center 4 lum2)) 3
      - shift_min 4 (normalize_img 4 (compute_fft_2d 2 2 (mean_center 4 lum2))))
    * (255 / shift_scale_max 4 (normalize_img 4 (compute_fft_2d 2 2 (mean_center 4 lum2)))) = 255
  rw [smn2, sM2, img2_val, f2_3, mag_one]
  norm_num

/-- C1: refuted by the code. On the 2x2 single-bright-pixel image the final
buffer sample at index 0 equals 255, which is not in [0,1]: shift_fft_image
(main.cpp:291) rescales the normalized magnitudes by 255/max before the
centering, so the buffer handed to the renderer is scaled to [0,255]. -/
theorem C1_cex : pipeline 2 2 lum2 0 = 255 ∧ ¬ pipeline 2 2 lum2 0 ≤ 1 := by
  refine ⟨pipeline2_at0, ?_⟩
  rw [pipeline2_at0]
  norm_num

/-- C1 witness: the amended theorem applied at t = 1 to the 2x2
single-bright-pixel image, whose spectrum is non-degenerate. -/
theorem C1_amended_witness :
    (∃ i, i < 2 * 1 * (2 * 1) ∧ pipeline (2 * 1) (2 * 1) lum2 i = 0) ∧
      (∃ i, i < 2 * 1 * (2 * 1) ∧ pipeline (2 * 1) (2 * 1) lum2 i = 255) := by
  have hnd : global_min (2 * 1 * (2 * 1))
      (compute_fft_2d (2 * 1) (2 * 1) (mean_center (2 * 1 * (2 * 1)) lum2)) ≠
      global_max (2 * 1 * (2 * 1))
      (compute_fft_2d (2 * 1) (2 * 1) (mean_center (2 * 1 * (2 * 1)) lum2)) := by
    show global_min 4 (compute_fft_2d 2 2 (mean_center 4 lum2)) ≠
      global_max 4 (compute_fft_2d 2 2 (mean_center 4 lum2))
    rw [gmin_f2, gmax_f2]
    norm_num
  have h := C1_amended_bounds 1 (by norm_num) lum2 hnd
  exact ⟨h.2.1, h.2.2⟩

lemma lum128_eq : png_to_luminance 3 (fun _ => 128) = fun _ => (128 / 255 : ℝ) := by
  funext p
  show to_luminance (as_float 128) (as_float 128) (as_float 128) = _
  rw [to_luminance, as_float]
  norm_num [uint8_min, uint8_max]

lemma const_center (n : ℕ) (hn : 0 < n) (a : ℝ) :
    mean_center n (fun _ => a) = fun _ => 0 := by
  funext i
  show ((a - compute_mean n (fun _ => a) : ℝ) : ℂ) = 0
  have hne : (n : ℝ) ≠ 0 := Nat.cast_ne_zero.mpr hn.ne'
  have hm : compute_mean n (fun _ => a) = a := by
    rw [compute_mean, Finset.sum_const, Finset.card_range, nsmul_eq_mul]
    exact mul_div_cancel_left₀ a hne
  rw [hm, sub_self]
  norm_num

lemma dft1_zero_fun (n k : ℕ) : dft1 n (fun _ => 0) k = 0 := by
  simp [dft1]

lemma fft2d_zero (w h : ℕ) : compute_fft_2d w h (fun _ => 0) = fun _ => 0 := by
  funext idx
  show fft_cols w h (fft_rows w (fun _ => 0)) idx = 0
  have hr : fft_rows w (fun _ => (0 : ℂ)) = fun _ => 0 := by
    funext i
    exact dft1_zero_fun w (i % w)
  rw [hr]
  exact dft1_zero_fun h (idx / w)

lemma gmin_zero_fun (n : ℕ) : global_min n (fun _ => (0 : ℂ)) = 0 := by
  show ((List.range n).map (fun _ => mag 0)).foldl min (mag 0) = 0
  rw [mag_zero]
  refine foldl_min_self _ _ ?_
  intro x hx
  rcases List.mem_map.mp hx with ⟨i, hi, he⟩
  exact he.symm

lemma gmax_zero_fun (n : ℕ) : global_max n (fun _ => (0 : ℂ)) = 0 := by
  show ((List.range n).map (fun _ => mag 0)).foldl max (mag 0) = 0
  rw [mag_zero]
  refine foldl_max_self _ _ ?_
  intro x hx
  rcases List.mem_map.mp hx with ⟨i, hi, he⟩
  exact he.symm

/-- C3: refuted by the code. The normalization at main.cpp:403-420 has no
degenerate-spectrum branch: on the all-128 3-channel 4x4 image the luminance
is constant, the mean-centered signal and its transform are identically zero,
and the denominator max - min of the division at main.cpp:418 is zero while
its numerator is also zero, so the code computes 0/0 for every sample; in
IEEE float arithmetic that is NaN, not the zero output the claim requires. -/
theorem C3_flat_denominator :
    norm_den 4 4 (png_to_luminance 3 (fun _ => 128)) = 0 ∧
      mag (compute_fft_2d 4 4 (mean_center (4 * 4) (png_to_luminance 3 (fun _ => 128))) 0) -
        global_min (4 * 4)
          (compute_fft_2d 4 4 (mean_center (4 * 4) (png_to_luminance 3 (fun _ => 128)))) = 0 := by
  have hc : mean_center (4 * 4) (png_to_luminance 3 (fun _ => 128)) = fun _ => 0 := by
    rw [lum128_eq]
    exact const_center (4 * 4) (by norm_num) _
  constructor
  · rw [norm_den, hc, fft2d_zero, gmax_zero_fun, gmin_zero_fun]
    norm_num
  · rw [hc, fft2d_zero, gmin_zero_fun]
    show mag 0 - 0 = 0
    rw [mag_zero]
    norm_num

/-- C7: refuted by the code. The png path of the on_drop handler calls
png_to_luminance, which performs no channel-count check (the checked
upload_png call at main.cpp:387 is commented out): on a 1-channel 2x2 buffer
it reads byte index 5 of the 2*2*1 = 4 available bytes (out of bounds) and
still produces a luminance buffer that flows on to the transform, instead of
rejecting the input with UnsupportedFormat. -/
theorem C7_no_rejection :
    upload_png_supported 1 = false ∧
      png_read_index 1 3 2 = 5 ∧ ¬ png_read_index 1 3 2 < 2 * 2 * 1 ∧
      png_to_luminance 1 (fun i => if i < 4 then 100 else 0) 3
        = to_luminance (as_float 100) (as_float 0) (as_float 0) := by
  refine ⟨rfl, rfl, by decide, ?_⟩
  show to_luminance (as_float (if png_read_index 1 3 0 < 4 then 100 else 0))
      (as_float (if png_read_index 1 3 1 < 4 then 100 else 0))
      (as_float (if png_read_index 1 3 2 < 4 then 100 else 0)) = _
  norm_num [png_read_index]

end FFTVis
